import Mathlib

/-!
Verification of the time-frequency reassignment spectrogram engine
(polarity.spectrogram): a shallow embedding of the window generator
(src/utils/windowFunctions.js, src/utils/mathHelpers.js), the FFT engine
(src/utils/fft.js) and the reassignment engine (the module defining
analyzeReassignment) over the real numbers, together with theorems settling
the specification claims.

Arrays (JS Float32Array / Uint8Array) are embedded as total functions from
array index to the real value stored there; loops that mutate an array
become folds over the index range, and loops that only tabulate a formula
into fresh cells become the function given by that formula, guarded by the
index range the loop writes (cells never written hold 0, the content of a
fresh typed array). JS floating-point arithmetic is idealized as real
arithmetic; division by zero follows the Lean convention x / 0 = 0, and
every place where that choice is observable is noted at the theorem that
depends on it. Math.atan2 (y, x) is the argument of the complex number
x + y i, and Math.round x is the floor of x + 1/2.
-/

open Real

namespace Spectrogram

/-! ### Loop and array combinators -/

/-- Iterate a loop body over indices 0, 1, ..., n-1 in ascending order,
threading a state: the embedding of a JS counting loop. -/
def iterN {α : Type} (f : ℕ → α → α) : ℕ → α → α
  | 0, s => s
  | n + 1, s => f n (iterN f n s)

/-- Single array-cell write: the embedding of a JS indexed assignment. -/
def upd (a : ℕ → ℝ) (i : ℕ) (v : ℝ) : ℕ → ℝ :=
  fun x => if x = i then v else a x

/-- The all-zero array: the content of a freshly allocated typed array. -/
def zeroFn : ℕ → ℝ := fun _ => 0

/-- Maximum of f 0, ..., f (n-1): the embedding of Math.max(...arr) over a
spread array. The initial accumulator 0 is exact for every use in this
code base, because every spread maximum here ranges over absolute values
or over nonnegative accumulated energies (for an empty spread JS yields
negative infinity, which no caller here observes). -/
def maxOver (n : ℕ) (f : ℕ → ℝ) : ℝ :=
  (List.range n).foldl (fun m i => max m (f i)) 0

/-! ### Math primitives (src/utils/mathHelpers.js) -/

/-- factorial (n): returns 1 for n at most 1, otherwise n * factorial (n-1).
The JS function computes in number arithmetic; small arguments are exact. -/
noncomputable def factorial (n : ℕ) : ℝ :=
  if n ≤ 1 then 1 else n * factorial (n - 1)

/-- evaluateHermitePolynomial (n, x): physicists Hermite recurrence,
H_0 = 1, H_1 = 2x, H_n = 2x H_(n-1) - 2(n-1) H_(n-2). -/
noncomputable def evaluateHermitePolynomial (n : ℕ) (x : ℝ) : ℝ :=
  if n = 0 then 1
  else if n = 1 then 2 * x
  else 2 * x * evaluateHermitePolynomial (n - 1) x -
    2 * ((n : ℝ) - 1) * evaluateHermitePolynomial (n - 2) x

/-! ### Window generator (src/utils/windowFunctions.js) -/

/-- The time axis of createHermiteFunctions: t[i] = -tm + i * dt with
dt = 2 tm / (N - 1); the loop tabulates this formula for i < N. -/
noncomputable def hermiteT (N : ℕ) (tm : ℝ) (i : ℕ) : ℝ :=
  -tm + i * (2.0 * tm / ((N : ℝ) - 1))

/-- The per-taper normalization of createHermiteFunctions:
norm = sqrt (sqrt (pi) * 2^k * factorial k). -/
noncomputable def hermiteNorm (k : ℕ) : ℝ :=
  Real.sqrt (Real.sqrt Real.pi * 2 ^ k * factorial k)

/-- createHermiteFunctions (N, M, tm): returns the three window banks
(h, Dh, Th), each a flat M*N array indexed by k*N + i. The nested loops
tabulate, for k < M and i < N with x = t[i] and hermite = H_k(x):
  h[k*N+i]  = hermite * exp (-x*x/2) / norm,
  Dh[k*N+i] = (k * hermite - x * hermite) * exp (-x*x/2) / norm,
  Th[k*N+i] = x * h[k*N+i];
the embedding is the graph of those writes. -/
noncomputable def createHermiteFunctions (N M : ℕ) (tm : ℝ) :
    (ℕ → ℝ) × (ℕ → ℝ) × (ℕ → ℝ) :=
  (fun idx => if idx < M * N then
      evaluateHermitePolynomial (idx / N) (hermiteT N tm (idx % N)) *
        Real.exp (-(hermiteT N tm (idx % N) * hermiteT N tm (idx % N)) / 2) /
        hermiteNorm (idx / N)
    else 0,
   fun idx => if idx < M * N then
      ((idx / N : ℕ) * evaluateHermitePolynomial (idx / N) (hermiteT N tm (idx % N)) -
          hermiteT N tm (idx % N) * evaluateHermitePolynomial (idx / N) (hermiteT N tm (idx % N))) *
        Real.exp (-(hermiteT N tm (idx % N) * hermiteT N tm (idx % N)) / 2) /
        hermiteNorm (idx / N)
    else 0,
   fun idx => if idx < M * N then
      hermiteT N tm (idx % N) *
        (evaluateHermitePolynomial (idx / N) (hermiteT N tm (idx % N)) *
          Real.exp (-(hermiteT N tm (idx % N) * hermiteT N tm (idx % N)) / 2) /
          hermiteNorm (idx / N))
    else 0)

/-! ### FFT engine (src/utils/fft.js)

performFFT works on an interleaved complex array: flat cell 2b holds the
real part of complex bin b and flat cell 2b+1 its imaginary part. The
embedding takes the number N of complex bins as a parameter (the source
derives it as input.length / 2). -/

/-- The inner while loop of the bit-reversal counter update:
while (k <= j) { j -= k; k >>= 1 }, followed by the trailing j += k.
The source would loop forever if k reached 0 with the condition still
true; that state is unreachable in performFFT (the counter j stays below
N - 1 and k starts at N/2), and the embedding returns j there. -/
def innerWhile (j k : ℕ) : ℕ :=
  if k = 0 then j
  else if k ≤ j then innerWhile (j - k) (k / 2)
  else j + k

/-- Swap the complex entries at bins i and j of an interleaved array:
the four-assignment temp swap of the bit-reversal pass. -/
def swapC (a : ℕ → ℝ) (i j : ℕ) : ℕ → ℝ :=
  fun x =>
    if x = 2 * i then a (2 * j)
    else if x = 2 * i + 1 then a (2 * j + 1)
    else if x = 2 * j then a (2 * i)
    else if x = 2 * j + 1 then a (2 * i + 1)
    else a x

/-- The bit-reversal pass of performFFT: for i from 0 to N-2, swap complex
bins i and j when i < j, then update j by the inner while loop with k
starting at N >> 1. -/
def bitrevPass (N : ℕ) (a : ℕ → ℝ) : ℕ → ℝ :=
  (iterN
    (fun i s =>
      ((if i < s.2 then swapC s.1 i s.2 else s.1), innerWhile s.2 (N / 2)))
    (N - 1) (a, 0)).1

/-- cosVal of a butterfly stage: cos (angle) with angle = -pi / halfStep
and halfStep = step. -/
noncomputable def cosVal (step : ℕ) : ℝ := Real.cos (-Real.pi / step)

/-- sinVal of a butterfly stage: sin (angle) with angle = -pi / halfStep. -/
noncomputable def sinVal (step : ℕ) : ℝ := Real.sin (-Real.pi / step)

/-- One butterfly of performFFT, with the twiddle factor exactly as the
source computes it: factor = pair / step (float division) and
rot = (cosVal * factor, sinVal * factor). -/
noncomputable def butterfly (step group pair : ℕ) (a : ℕ → ℝ) : ℕ → ℝ :=
  let evenIndex := group * 2 + pair * 2
  let oddIndex := evenIndex + step * 2
  let factor : ℝ := (pair : ℝ) / (step : ℝ)
  let rotReal := cosVal step * factor
  let rotImag := sinVal step * factor
  let evenReal := a evenIndex
  let evenImag := a (evenIndex + 1)
  let oddReal := a oddIndex
  let oddImag := a (oddIndex + 1)
  let tempReal := oddReal * rotReal - oddImag * rotImag
  let tempImag := oddReal * rotImag + oddImag * rotReal
  upd (upd (upd (upd a oddIndex (evenReal - tempReal))
        (oddIndex + 1) (evenImag - tempImag))
      evenIndex (evenReal + tempReal))
    (evenIndex + 1) (evenImag + tempImag)

/-- The pair loop of one butterfly group: pair from 0 to step - 1. -/
noncomputable def pairsLoop (step group : ℕ) (a : ℕ → ℝ) : ℕ → ℝ :=
  iterN (fun pair b => butterfly step group pair b) step a

/-- The group loop of one stage: group offsets 0, 2 step, 4 step, ... < N,
hence ceil (N / (2 step)) iterations. -/
noncomputable def groupsLoop (N step : ℕ) (a : ℕ → ℝ) : ℕ → ℝ :=
  iterN (fun g b => pairsLoop step (g * (step * 2)) b)
    ((N + step * 2 - 1) / (step * 2)) a

/-- The stage loop of performFFT: step = 1, 2, 4, ... while step < N,
hence stages step = 2^s for s < ceil (log2 N). -/
noncomputable def fftStages (N : ℕ) (a : ℕ → ℝ) : ℕ → ℝ :=
  iterN (fun s b => groupsLoop N (2 ^ s) b) (Nat.clog 2 N) a

/-- performFFT: copy the input, run the bit-reversal pass, then the
butterfly stages. -/
noncomputable def performFFT (N : ℕ) (input : ℕ → ℝ) : ℕ → ℝ :=
  fftStages N (bitrevPass N input)

/-- computeSTFT (data, window): multiply data by the window pointwise,
pack the product as an interleaved complex array with zero imaginary
parts, and run performFFT on it. N is the data length, as in the source.
(The source also accumulates the peak and sum of the windowed samples;
both are dead values and are not part of the result.) -/
noncomputable def computeSTFT (data : ℕ → ℝ) (N : ℕ) (window : ℕ → ℝ) : ℕ → ℝ :=
  performFFT N
    (fun idx => if idx % 2 = 0 ∧ idx / 2 < N then
        data (idx / 2) * window (idx / 2)
      else 0)

/-- Magnitude of complex bin b of an interleaved spectrum, as the engine
computes it: sqrt (real * real + imag * imag). -/
noncomputable def magAt (a : ℕ → ℝ) (b : ℕ) : ℝ :=
  Real.sqrt (a (b * 2) * a (b * 2) + a (b * 2 + 1) * a (b * 2 + 1))

/-! ### Reference definitions used by the claims (stated from the spec) -/

/-- The reference discrete Fourier transform of the spec:
bin b is the sum over n of x_n * exp (-2 pi i b n / N). -/
noncomputable def dft (N : ℕ) (x : ℕ → ℂ) (b : ℕ) : ℂ :=
  ∑ n ∈ Finset.range N, x n * Complex.exp (-2 * Real.pi * Complex.I * b * n / N)

/-- An interleaved complex array holding 1 + 0i at complex bin c and zero
everywhere else. -/
def eC (c : ℕ) : ℕ → ℝ := fun x => if x = 2 * c then 1 else 0

/-- Bit reversal of i over p bits (least significant bit first), the
mathematical permutation against which the bit-reversal pass is proved. -/
def bitrev : ℕ → ℕ → ℕ
  | 0, _ => 0
  | p + 1, i => bitrev p (i / 2) + (i % 2) * 2 ^ p

/-- Spec wording: the physicists Hermite recurrence, written independently
of the source as a structural recursion. -/
noncomputable def specHermitePoly : ℕ → ℝ → ℝ
  | 0, _ => 1
  | 1, x => 2 * x
  | n + 2, x =>
    2 * x * specHermitePoly (n + 1) x - 2 * ((n : ℝ) + 1) * specHermitePoly n x

/-- Spec wording: time axis t_i = -tm + i * (2 tm / (N - 1)). -/
noncomputable def specTimeAxis (N : ℕ) (tm : ℝ) (i : ℕ) : ℝ :=
  -tm + i * (2 * tm / ((N : ℝ) - 1))

/-- Spec wording: norm_k = sqrt (sqrt pi * 2^k * k!). -/
noncomputable def specNorm (k : ℕ) : ℝ :=
  Real.sqrt (Real.sqrt Real.pi * 2 ^ k * (Nat.factorial k : ℝ))

/-- Spec wording: h[k,i] = H_k(t_i) * exp (-t_i^2 / 2) / norm_k. -/
noncomputable def specWindowH (N : ℕ) (tm : ℝ) (k i : ℕ) : ℝ :=
  specHermitePoly k (specTimeAxis N tm i) *
    Real.exp (-(specTimeAxis N tm i) ^ 2 / 2) / specNorm k

/-- Spec wording: Dh[k,i] = (k H_k(t_i) - t_i H_k(t_i)) * exp (-t_i^2/2) / norm_k. -/
noncomputable def specWindowDh (N : ℕ) (tm : ℝ) (k i : ℕ) : ℝ :=
  ((k : ℝ) * specHermitePoly k (specTimeAxis N tm i) -
      specTimeAxis N tm i * specHermitePoly k (specTimeAxis N tm i)) *
    Real.exp (-(specTimeAxis N tm i) ^ 2 / 2) / specNorm k

/-- Spec wording: Th[k,i] = t_i * h[k,i]. -/
noncomputable def specWindowTh (N : ℕ) (tm : ℝ) (k i : ℕ) : ℝ :=
  specTimeAxis N tm i * specWindowH N tm k i

/-! ### Reassignment engine (the module defining analyzeReassignment) -/

/-- The module-level window size constant. -/
def WINDOW_SIZE : ℕ := 2048

/-- The state threaded through the per-bin loop: the accumulated energy
array tfr, the running maximum magnitude, and the module-level
previousPhase buffer. -/
structure BinState where
  tfr : ℕ → ℝ
  maxMagnitude : ℝ
  previousPhase : ℕ → ℝ

/-- The first wrap loop on the raw offset:
while (instFreqOffset > pi) instFreqOffset -= 2 pi. The operand is a
difference of two atan2 values divided by 2 pi, so it lies in (-1, 1)
and the body never executes more than once; a single conditional step is
therefore an exact model of the loop. -/
noncomputable def wrapHigh (x : ℝ) : ℝ :=
  if x > Real.pi then x - 2 * Real.pi else x

/-- The second wrap loop:
while (instFreqOffset < -pi) instFreqOffset += 2 pi; modeled like the
first one. -/
noncomputable def wrapLow (x : ℝ) : ℝ :=
  if x < -Real.pi then x + 2 * Real.pi else x

/-- The clamped frequency correction of the per-bin step:
freqOffset = max (-50, min (50, instFreqOffset * sampleRate / N)). -/
noncomputable def freqOffset (instFreqOffset sampleRate : ℝ) : ℝ :=
  max (-50) (min 50 (instFreqOffset * sampleRate / (WINDOW_SIZE : ℝ)))

/-- The body of the per-bin loop of analyzeReassignment, for one bin of
one taper: compute magnitude and phases, skip the bin unless its magnitude
exceeds 0.01 times the running maximum, otherwise update the running
maximum, record the phase in previousPhase, derive the clamped frequency
correction, and accumulate weighted energy at the reassigned bin when that
bin lies inside [0, N/2). -/
noncomputable def binBody (sampleRate : ℝ) (stft freqMod : ℕ → ℝ) (bin : ℕ)
    (st : BinState) : BinState :=
  let real := stft (bin * 2)
  let imag := stft (bin * 2 + 1)
  let mag := Real.sqrt (real * real + imag * imag)
  let binFreq := (bin : ℝ) * sampleRate / (WINDOW_SIZE : ℝ)
  let freqWeight := Real.exp (-(binFreq - 500) ^ 2 / (2 * 100 * 100))
  if mag > st.maxMagnitude * 0.01 then
    let maxMagnitude := max st.maxMagnitude mag
    let phase := Complex.arg (Complex.mk real imag)
    let previousPhase := upd st.previousPhase bin phase
    let freqReal := freqMod (bin * 2)
    let freqImag := freqMod (bin * 2 + 1)
    let freqPhase := Complex.arg (Complex.mk freqReal freqImag)
    let instFreqOffset := wrapLow (wrapHigh ((freqPhase - phase) / (2 * Real.pi)))
    let offset := freqOffset instFreqOffset sampleRate
    let reassignedFreq := binFreq + offset
    let reassignedBin : ℤ := ⌊reassignedFreq * (WINDOW_SIZE : ℝ) / sampleRate + 1 / 2⌋
    if 0 ≤ reassignedBin ∧ reassignedBin < ((WINDOW_SIZE / 2 : ℕ) : ℤ) then
      let rb := reassignedBin.toNat
      let distance := |(rb : ℝ) - (bin : ℝ)|
      let weight := Real.exp (-(distance * distance) / (2 * 0.5 * 0.5))
      let finalWeight := weight * freqWeight * (mag / maxMagnitude) ^ 2
      { tfr := upd st.tfr rb (st.tfr rb + mag * finalWeight),
        maxMagnitude := maxMagnitude,
        previousPhase := previousPhase }
    else
      { tfr := st.tfr, maxMagnitude := maxMagnitude,
        previousPhase := previousPhase }
  else st

/-- The body of the taper loop of analyzeReassignment: slice the k-th
time and frequency windows out of the banks, compute the two spectra of
the frame, and run the per-bin loop over bins 0 to N/2 - 1. -/
noncomputable def taperBody (h Dh frameData : ℕ → ℝ) (fl : ℕ)
    (sampleRate : ℝ) (k : ℕ) (st : BinState) : BinState :=
  let timeWindow := fun i => if i < WINDOW_SIZE then h (k * WINDOW_SIZE + i) else 0
  let freqWindow := fun i => if i < WINDOW_SIZE then Dh (k * WINDOW_SIZE + i) else 0
  let stft := computeSTFT frameData fl timeWindow
  let freqMod := computeSTFT frameData fl freqWindow
  iterN (binBody sampleRate stft freqMod) (WINDOW_SIZE / 2) st

/-- Length of the frame slice normalizedData.slice (startIdx, startIdx + N)
for an input of length len: JS slice clamps both ends to the array. -/
def frameLen (len step frame : ℕ) : ℕ :=
  min (frame * step + WINDOW_SIZE) len - frame * step

/-- The frame count of analyzeReassignment:
max (1, floor ((len - N) / step) + 1), with the subtraction, the division
and the floor taken in JS number arithmetic (hence over the reals, with a
genuine floor of a possibly negative quotient). -/
noncomputable def nFrames (len step : ℕ) : ℤ :=
  max 1 (⌊((len : ℝ) - (WINDOW_SIZE : ℝ)) / (step : ℝ)⌋ + 1)

/-- The body of the frame loop of analyzeReassignment: slice the frame,
run every taper over a fresh tfr accumulator and running maximum (the
previousPhase buffer persists), then normalize tfr by its maximum, apply
the 0.1 gamma, scale by 255 * 5 and clamp to [0, 255], storing into the
shared Uint8Array result (the floor models the Uint8 conversion); when
the maximum is zero the result array is left untouched. The loop state is
the pair (result, previousPhase). -/
noncomputable def frameBody (h Dh normalizedData : ℕ → ℝ) (len : ℕ)
    (sampleRate : ℝ) (step K : ℕ) (frame : ℕ) (st : (ℕ → ℝ) × (ℕ → ℝ)) :
    (ℕ → ℝ) × (ℕ → ℝ) :=
  let startIdx := frame * step
  let fl := frameLen len step frame
  let frameData := fun i => if i < fl then normalizedData (startIdx + i) else 0
  let afterTapers :=
    iterN (taperBody h Dh frameData fl sampleRate) K
      { tfr := zeroFn, maxMagnitude := 0, previousPhase := st.2 }
  let maxVal := maxOver (WINDOW_SIZE / 2) afterTapers.tfr
  (if maxVal > 0 then
      fun i => if i < WINDOW_SIZE / 2 then
          ((⌊min 255 (max 0 ((afterTapers.tfr i / maxVal) ^ (0.1 : ℝ) * 255 * 5.0))⌋ : ℤ) : ℝ)
        else st.1 i
    else st.1,
   afterTapers.previousPhase)

/-- analyzeReassignment (audioData, sampleRate, step, K, tm): build the
Hermite window banks, normalize the input by its global peak absolute
amplitude and amplify by 200, then run the frame loop over
max (1, floor ((len - N) / step) + 1) frames. The module-level
previousPhase buffer is passed in and returned explicitly, so the
embedding is the source function together with its only ambient state;
the Uint8Array result is the first component. -/
noncomputable def analyzeReassignment (audioData : ℕ → ℝ) (len : ℕ)
    (sampleRate : ℝ) (step K : ℕ) (tm : ℝ) (previousPhase0 : ℕ → ℝ) :
    (ℕ → ℝ) × (ℕ → ℝ) :=
  let bank := createHermiteFunctions WINDOW_SIZE K tm
  let maxAmp := maxOver len (fun i => |audioData i|)
  let normalizedData := fun i => if i < len then audioData i / maxAmp * 200.0 else 0
  iterN (frameBody bank.1 bank.2.1 normalizedData len sampleRate step K)
    (nFrames len step).toNat (zeroFn, previousPhase0)

/-- The proposition claim C9 asserts of the engine: every frame the frame
loop processes has the full window length. -/
def fullFrameProp (len step : ℕ) : Prop :=
  ∀ f, f < (nFrames len step).toNat → frameLen len step f = WINDOW_SIZE

/-! ## Theorems -/

/-! ### Combinator lemmas -/

theorem iterN_zero {α : Type} (f : ℕ → α → α) (s : α) : iterN f 0 s = s := rfl

theorem iterN_succ {α : Type} (f : ℕ → α → α) (n : ℕ) (s : α) :
    iterN f (n + 1) s = f n (iterN f n s) := rfl

theorem iterN_pres {α : Type} (P : α → Prop) (f : ℕ → α → α)
    (hf : ∀ i a, P a → P (f i a)) (n : ℕ) (s : α) (hs : P s) :
    P (iterN f n s) := by
  induction n with
  | zero => exact hs
  | succ m ih => exact hf m _ ih

theorem iterN_rel {α β : Type} (R : α → β → Prop) (f : ℕ → α → α)
    (g : ℕ → β → β) (hfg : ∀ i a b, R a b → R (f i a) (g i b)) (n : ℕ)
    (a : α) (b : β) (hab : R a b) : R (iterN f n a) (iterN g n b) := by
  induction n with
  | zero => exact hab
  | succ m ih => exact hfg m _ _ ih

theorem upd_self (a : ℕ → ℝ) (i : ℕ) (v : ℝ) : upd a i v i = v := by
  simp [upd]

theorem upd_other (a : ℕ → ℝ) (i : ℕ) (v : ℝ) {x : ℕ} (h : x ≠ i) :
    upd a i v x = a x := by
  simp [upd, h]

theorem maxOver_nonneg (n : ℕ) (f : ℕ → ℝ) : 0 ≤ maxOver n f := by
  unfold maxOver
  have key : ∀ l : List ℕ, ∀ m : ℝ, 0 ≤ m →
      0 ≤ l.foldl (fun m i => max m (f i)) m := by
    intro l
    induction l with
    | nil => intro m hm; simpa using hm
    | cons x xs ih =>
      intro m hm
      exact ih _ (le_trans hm (le_max_left _ _))
  exact key _ 0 le_rfl

theorem maxOver_zeroFn (n : ℕ) : maxOver n (fun _ => (0 : ℝ)) = 0 := by
  unfold maxOver
  have key : ∀ l : List ℕ,
      l.foldl (fun (m : ℝ) (_ : ℕ) => max m 0) 0 = 0 := by
    intro l
    induction l with
    | nil => rfl
    | cons x xs ih => simpa using ih
  simpa using key (List.range n)

/-! ### Flat-index arithmetic -/

theorem flat_div (N k i : ℕ) (hi : i < N) : (k * N + i) / N = k := by
  have hN : 0 < N := lt_of_le_of_lt (Nat.zero_le i) hi
  rw [mul_comm, Nat.mul_add_div hN, Nat.div_eq_of_lt hi]
  omega

theorem flat_mod (N k i : ℕ) (hi : i < N) : (k * N + i) % N = i := by
  rw [mul_comm, Nat.mul_add_mod, Nat.mod_eq_of_lt hi]

theorem flat_lt (N M k i : ℕ) (hk : k < M) (hi : i < N) : k * N + i < M * N := by
  calc k * N + i < k * N + N := by omega
  _ = (k + 1) * N := by ring
  _ ≤ M * N := Nat.mul_le_mul_right N (by omega)

/-! ### Window generator: agreement with the spec formulas -/

theorem factorial_eq_natFactorial (n : ℕ) : factorial n = (Nat.factorial n : ℝ) := by
  induction n with
  | zero =>
    rw [factorial]
    norm_num [Nat.factorial]
  | succ m ih =>
    cases m with
    | zero =>
      rw [factorial]
      norm_num [Nat.factorial]
    | succ l =>
      rw [factorial, if_neg (by omega)]
      have h1 : l + 1 + 1 - 1 = l + 1 := by omega
      have h2 : Nat.factorial (l + 1 + 1) = (l + 1 + 1) * Nat.factorial (l + 1) :=
        Nat.factorial_succ (l + 1)
      rw [h1, ih, h2]
      push_cast
      ring

theorem evaluateHermitePolynomial_eq_spec (n : ℕ) (x : ℝ) :
    evaluateHermitePolynomial n x = specHermitePoly n x := by
  induction n using Nat.strong_induction_on with
  | _ n ih =>
    match n with
    | 0 => simp [evaluateHermitePolynomial, specHermitePoly]
    | 1 => simp [evaluateHermitePolynomial, specHermitePoly]
    | m + 2 =>
      rw [evaluateHermitePolynomial, if_neg (by omega), if_neg (by omega)]
      have h1 : m + 2 - 1 = m + 1 := by omega
      have h2 : m + 2 - 2 = m := by omega
      rw [h1, h2, ih (m + 1) (by omega), ih m (by omega), specHermitePoly]
      push_cast
      ring

theorem hermiteT_eq_spec (N : ℕ) (tm : ℝ) (i : ℕ) :
    hermiteT N tm i = specTimeAxis N tm i := by
  unfold hermiteT specTimeAxis
  norm_num

theorem hermiteNorm_eq_spec (k : ℕ) : hermiteNorm k = specNorm k := by
  unfold hermiteNorm specNorm
  rw [factorial_eq_natFactorial]

/-- C6: for every taper k < K and sample i < N, the three arrays returned
by createHermiteFunctions satisfy exactly (in real arithmetic) the closed
forms of the spec: h[k,i] = H_k(t_i) exp (-t_i^2/2) / norm_k,
Dh[k,i] = (k H_k(t_i) - t_i H_k(t_i)) exp (-t_i^2/2) / norm_k and
Th[k,i] = t_i h[k,i], with t_i = -tm + i (2 tm / (N-1)),
norm_k = sqrt (sqrt pi * 2^k * k!) and H_k the physicists recurrence. -/
theorem C6_hermite_window_formulas (N K : ℕ) (tm : ℝ) (k i : ℕ)
    (hk : k < K) (hi : i < N) :
    (createHermiteFunctions N K tm).1 (k * N + i) = specWindowH N tm k i ∧
    (createHermiteFunctions N K tm).2.1 (k * N + i) = specWindowDh N tm k i ∧
    (createHermiteFunctions N K tm).2.2 (k * N + i) = specWindowTh N tm k i := by
  have hin := flat_lt N K k i hk hi
  have hdiv := flat_div N k i hi
  have hmod := flat_mod N k i hi
  have hsq : ∀ x : ℝ, -(x * x) / 2 = -x ^ 2 / 2 := by intro x; ring
  unfold createHermiteFunctions specWindowH specWindowDh specWindowTh
  simp only [hin, if_pos, hdiv, hmod, hermiteT_eq_spec, hermiteNorm_eq_spec,
    evaluateHermitePolynomial_eq_spec, hsq]
  trivial

/-- Witness for C6 at the concrete configuration N = 1, K = 1, tm = 1,
taper k = 0, sample i = 0. -/
theorem C6_hermite_window_formulas_witness :
    (0 : ℕ) < 1 ∧
    ((createHermiteFunctions 1 1 1).1 (0 * 1 + 0) = specWindowH 1 1 0 0 ∧
     (createHermiteFunctions 1 1 1).2.1 (0 * 1 + 0) = specWindowDh 1 1 0 0 ∧
     (createHermiteFunctions 1 1 1).2.2 (0 * 1 + 0) = specWindowTh 1 1 0 0) :=
  ⟨by decide, C6_hermite_window_formulas 1 1 1 0 0 (by decide) (by decide)⟩

/-- C10: for every taper k < M and sample i < N, the returned arrays
satisfy Dh[k*N+i] + Th[k*N+i] = k * h[k*N+i] exactly in real arithmetic. -/
theorem C10_window_bank_identity (N M : ℕ) (tm : ℝ) (k i : ℕ)
    (hk : k < M) (hi : i < N) :
    (createHermiteFunctions N M tm).2.1 (k * N + i) +
      (createHermiteFunctions N M tm).2.2 (k * N + i) =
    (k : ℝ) * (createHermiteFunctions N M tm).1 (k * N + i) := by
  have hin := flat_lt N M k i hk hi
  have hdiv := flat_div N k i hi
  have hmod := flat_mod N k i hi
  unfold createHermiteFunctions
  simp only [hin, if_pos, hdiv, hmod]
  ring

/-- Witness for C10 at the concrete configuration N = 2, M = 1, tm = 1,
taper k = 0, sample i = 1. -/
theorem C10_window_bank_identity_witness :
    (0 : ℕ) < 1 ∧ (1 : ℕ) < 2 ∧
    (createHermiteFunctions 2 1 1).2.1 (0 * 2 + 1) +
      (createHermiteFunctions 2 1 1).2.2 (0 * 2 + 1) =
    ((0 : ℕ) : ℝ) * (createHermiteFunctions 2 1 1).1 (0 * 2 + 1) :=
  ⟨by decide, by decide, C10_window_bank_identity 2 1 1 0 1 (by decide) (by decide)⟩

/-! ### C1: the FFT against the reference DFT -/

theorem iterN_one {α : Type} (f : ℕ → α → α) (s : α) : iterN f 1 s = f 0 s := rfl

theorem clog_two_two : Nat.clog 2 2 = 1 := by
  simpa using Nat.clog_pow 2 1 (by norm_num)

/-- On two complex bins, performFFT reduces to its single butterfly. -/
theorem performFFT_two (input : ℕ → ℝ) :
    performFFT 2 input = butterfly 1 0 0 (bitrevPass 2 input) := by
  unfold performFFT fftStages
  rw [clog_two_two]
  rfl

/-- C1 (evidence for the twiddle-factor bug): on the two-sample signal
(0, 1), i.e. the interleaved complex input with 1 + 0i at bin 1,
performFFT returns 0 + 0i at bin 0, while the reference DFT puts
x_0 + x_1 = 1 there: the in-place FFT does not compute the reference
discrete Fourier transform (stage step = 1 has factor = pair / step = 0,
so its twiddle factor vanishes instead of being e^0 = 1). -/
theorem C1_fft_bug_evidence :
    performFFT 2 (eC 1) 0 = 0 ∧ performFFT 2 (eC 1) 1 = 0 ∧
    dft 2 (fun n => if n = 1 then 1 else 0) 0 = 1 ∧
    Complex.mk (performFFT 2 (eC 1) 0) (performFFT 2 (eC 1) 1) ≠
      dft 2 (fun n => if n = 1 then 1 else 0) 0 := by
  have hbr : bitrevPass 2 (eC 1) = eC 1 := rfl
  have h0 : performFFT 2 (eC 1) 0 = 0 := by
    rw [performFFT_two, hbr]
    simp [butterfly, upd, eC]
  have h1 : performFFT 2 (eC 1) 1 = 0 := by
    rw [performFFT_two, hbr]
    simp [butterfly, upd, eC]
  have hdft : dft 2 (fun n => if n = 1 then (1 : ℂ) else 0) 0 = 1 := by
    unfold dft
    rw [Finset.sum_range_succ, Finset.sum_range_succ, Finset.sum_range_zero]
    norm_num
  refine ⟨h0, h1, hdft, ?_⟩
  rw [h0, h1, hdft]
  intro hcontra
  have : (Complex.mk 0 0).re = (1 : ℂ).re := by rw [hcontra]
  simp at this

/-! ### C2: the bit-reversal counter and the impulse spectrum -/

theorem bitrev_lt (p i : ℕ) : bitrev p i < 2 ^ p := by
  induction p generalizing i with
  | zero => simp [bitrev]
  | succ p' ih =>
    rw [bitrev]
    have h1 := ih (i / 2)
    have h2 : i % 2 ≤ 1 := by omega
    have h3 : 2 ^ (p' + 1) = 2 ^ p' + 2 ^ p' := by rw [pow_succ]; ring
    have h4 : i % 2 * 2 ^ p' ≤ 2 ^ p' := by
      calc i % 2 * 2 ^ p' ≤ 1 * 2 ^ p' := Nat.mul_le_mul_right _ h2
      _ = 2 ^ p' := one_mul _
    omega

theorem bitrev_zero (p : ℕ) : bitrev p 0 = 0 := by
  induction p with
  | zero => rfl
  | succ p' ih => simp [bitrev, ih]

theorem bitrev_one (p : ℕ) (hp : 1 ≤ p) : bitrev p 1 = 2 ^ (p - 1) := by
  obtain ⟨p', rfl⟩ : ∃ p', p = p' + 1 := ⟨p - 1, by omega⟩
  rw [bitrev]
  norm_num [bitrev_zero]

/-- The inner while loop performs one bit-reversed increment: from the
bit reversal of i (over p bits) with k starting at 2^p / 2, it reaches
the bit reversal of i + 1, provided i + 1 is still inside the p-bit
range. -/
theorem innerWhile_bitrev (p : ℕ) : ∀ i, i + 1 < 2 ^ p →
    innerWhile (bitrev p i) (2 ^ p / 2) = bitrev p (i + 1) := by
  induction p with
  | zero =>
    intro i hi
    exact absurd hi (by norm_num)
  | succ p' ih =>
    intro i hi
    have hhalf : 2 ^ (p' + 1) / 2 = 2 ^ p' := by
      rw [pow_succ]
      exact Nat.mul_div_cancel _ (by norm_num)
    rw [hhalf]
    have hlt : bitrev p' (i / 2) < 2 ^ p' := bitrev_lt p' (i / 2)
    have hpow0 : (2 : ℕ) ^ p' ≠ 0 := (Nat.pow_pos (by norm_num)).ne'
    by_cases hpar : i % 2 = 0
    · have h1 : bitrev (p' + 1) i = bitrev p' (i / 2) := by
        rw [bitrev, hpar]
        simp
      have h2 : bitrev (p' + 1) (i + 1) = bitrev p' (i / 2) + 2 ^ p' := by
        rw [bitrev]
        have e1 : (i + 1) / 2 = i / 2 := by omega
        have e2 : (i + 1) % 2 = 1 := by omega
        rw [e1, e2, one_mul]
      rw [h1, h2, innerWhile, if_neg hpow0, if_neg (not_le.mpr hlt)]
    · have hpar1 : i % 2 = 1 := by omega
      have hp'pos : 1 ≤ p' := by
        by_contra h
        have hz : p' = 0 := by omega
        subst hz
        norm_num at hi
        omega
      have h1 : bitrev (p' + 1) i = bitrev p' (i / 2) + 2 ^ p' := by
        rw [bitrev, hpar1, one_mul]
      have h2 : bitrev (p' + 1) (i + 1) = bitrev p' (i / 2 + 1) := by
        rw [bitrev]
        have e2 : (i + 1) % 2 = 0 := by omega
        have e1 : (i + 1) / 2 = i / 2 + 1 := by omega
        rw [e1, e2]
        simp
      have hrec : i / 2 + 1 + 1 ≤ 2 ^ p' := by
        have hps : 2 ^ (p' + 1) = 2 * 2 ^ p' := by rw [pow_succ]; ring
        omega
      rw [h1, h2, innerWhile, if_neg hpow0, if_pos (Nat.le_add_left _ _)]
      have e4 : bitrev p' (i / 2) + 2 ^ p' - 2 ^ p' = bitrev p' (i / 2) := by omega
      rw [e4]
      exact ih (i / 2) (by omega)

/-- Swapping two complex bins both different from c leaves the impulse
array at bin c unchanged. -/
theorem swapC_eC_fixed (c i j : ℕ) (hi : i ≠ c) (hj : j ≠ c) :
    swapC (eC c) i j = eC c := by
  funext x
  simp only [swapC, eC]
  split_ifs <;> first | rfl | (exfalso; omega)

/-- Swapping complex bins i and j moves the impulse at bin j to bin i. -/
theorem swapC_eC_move (i j : ℕ) : swapC (eC j) i j = eC i := by
  funext x
  simp only [swapC, eC]
  split_ifs <;> first | rfl | (exfalso; omega)

/-- The bit-reversal pass sends the impulse at complex bin N/2 = 2^(p-1)
to complex bin 1: the swap at iteration i = 1 (whose partner is the bit
reversal of 1) moves it there, and no later swap touches bin 1. -/
theorem bitrevPass_impulse (p : ℕ) (hp : 1 ≤ p) :
    bitrevPass (2 ^ p) (eC (2 ^ (p - 1))) = eC 1 := by
  have hhalf : 2 ^ p / 2 = 2 ^ (p - 1) := by
    obtain ⟨p', rfl⟩ : ∃ p', p = p' + 1 := ⟨p - 1, by omega⟩
    rw [pow_succ]
    simp [Nat.mul_div_cancel]
  have aux : ∀ n, n + 1 ≤ 2 ^ p →
      iterN (fun i s => ((if i < s.2 then swapC s.1 i s.2 else s.1),
          innerWhile s.2 (2 ^ p / 2))) n (eC (2 ^ (p - 1)), 0) =
        ((if n ≤ 1 then eC (2 ^ (p - 1)) else eC 1), bitrev p n) := by
    intro n
    induction n with
    | zero =>
      intro _
      rw [iterN_zero, bitrev_zero]
      simp
    | succ m ihm =>
      intro hm
      rw [iterN_succ, ihm (by omega)]
      have hup : innerWhile (bitrev p m) (2 ^ p / 2) = bitrev p (m + 1) :=
        innerWhile_bitrev p m (by omega)
      dsimp only
      by_cases hm0 : m = 0
      · subst hm0
        rw [bitrev_zero] at hup ⊢
        simp [hup]
      · by_cases hm1 : m = 1
        · subst hm1
          rw [bitrev_one p hp] at hup ⊢
          rw [if_pos (le_refl 1), if_neg (show ¬1 + 1 ≤ 1 by omega)]
          by_cases hpp : p = 1
          · subst hpp
            have e1 : (2 : ℕ) ^ (1 - 1) = 1 := by norm_num
            rw [e1] at hup ⊢
            rw [if_neg (by norm_num)]
            exact congrArg (Prod.mk (eC 1)) hup
          · have hbig : 1 < 2 ^ (p - 1) := by
              have h21 : 2 ^ 1 ≤ 2 ^ (p - 1) :=
                Nat.pow_le_pow_right (by norm_num) (by omega)
              omega
            rw [if_pos hbig, swapC_eC_move 1 (2 ^ (p - 1))]
            exact congrArg (Prod.mk (eC 1)) hup
        · have hm2 : 2 ≤ m := by omega
          rw [if_neg (show ¬m ≤ 1 by omega), if_neg (show ¬m + 1 ≤ 1 by omega)]
          by_cases hsw : m < bitrev p m
          · rw [if_pos hsw, swapC_eC_fixed 1 m (bitrev p m) (by omega) (by omega)]
            exact congrArg (Prod.mk (eC 1)) hup
          · rw [if_neg hsw]
            exact congrArg (Prod.mk (eC 1)) hup
  have hpow1 : 1 ≤ 2 ^ p := Nat.one_le_two_pow
  have hfinal := aux (2 ^ p - 1) (by omega)
  unfold bitrevPass
  rw [hfinal]
  by_cases hpp : p = 1
  · subst hpp
    norm_num
  · have h4 : 4 ≤ 2 ^ p := by
      have h22 : (2 : ℕ) ^ 2 ≤ 2 ^ p := Nat.pow_le_pow_right (by norm_num) (by omega)
      omega
    rw [if_neg (show ¬2 ^ p - 1 ≤ 1 by omega)]

/-- A butterfly with pair = 0 has factor 0, so its twiddle vanishes and it
copies the even complex entry over the odd one. -/
theorem butterfly_pair_zero (step group : ℕ) (a : ℕ → ℝ) :
    butterfly step group 0 a = fun x =>
      if x = group * 2 + step * 2 then a (group * 2)
      else if x = group * 2 + step * 2 + 1 then a (group * 2 + 1)
      else a x := by
  funext x
  simp only [butterfly, upd, Nat.cast_zero, zero_div, mul_zero, zero_mul,
    sub_zero, add_zero, Nat.mul_zero, Nat.add_zero]
  split_ifs <;> first | rfl | (exfalso; omega) | (subst_vars; rfl)

/-- Every butterfly maps the all-zero array to itself. -/
theorem butterfly_zeroFn (step group pair : ℕ) :
    butterfly step group pair zeroFn = zeroFn := by
  funext x
  simp only [butterfly, upd, zeroFn]
  split_ifs <;> ring

theorem pairsLoop_zeroFn (step group : ℕ) : pairsLoop step group zeroFn = zeroFn := by
  unfold pairsLoop
  exact iterN_pres (fun a => a = zeroFn) _
    (fun i a ha => by rw [ha]; exact butterfly_zeroFn _ _ _) _ _ rfl

theorem groupsLoop_zeroFn (N step : ℕ) : groupsLoop N step zeroFn = zeroFn := by
  unfold groupsLoop
  exact iterN_pres (fun a => a = zeroFn) _
    (fun i a ha => by rw [ha]; exact pairsLoop_zeroFn _ _) _ _ rfl

/-- The first butterfly stage (step = 1) wipes out an impulse sitting at
complex bin 1: every pair = 0 butterfly copies the even entry over the odd
one, and all even entries are zero. -/
theorem groupsLoop_one_eC_one (p : ℕ) (hp : 1 ≤ p) :
    groupsLoop (2 ^ p) 1 (eC 1) = zeroFn := by
  have hc1 : 1 ≤ 2 ^ (p - 1) := Nat.one_le_two_pow
  have hps : 2 ^ p = 2 * 2 ^ (p - 1) := by
    have e : p - 1 + 1 = p := by omega
    calc 2 ^ p = 2 ^ (p - 1 + 1) := by rw [e]
    _ = 2 ^ (p - 1) * 2 := pow_succ 2 (p - 1)
    _ = 2 * 2 ^ (p - 1) := by ring
  have hcount : (2 ^ p + 1 * 2 - 1) / (1 * 2) = 2 ^ (p - 1) := by omega
  unfold groupsLoop
  rw [hcount]
  have aux : ∀ m, iterN (fun g b => pairsLoop 1 (g * (1 * 2)) b) m (eC 1) =
      fun x => if x < 4 * m then 0 else eC 1 x := by
    intro m
    induction m with
    | zero =>
      funext x
      rw [iterN_zero]
      simp
    | succ q ihq =>
      rw [iterN_succ, ihq]
      have hpl : ∀ b, pairsLoop 1 (q * (1 * 2)) b = butterfly 1 (q * (1 * 2)) 0 b :=
        fun b => rfl
      rw [hpl, butterfly_pair_zero]
      funext x
      simp only [eC]
      split_ifs <;> first | rfl | (exfalso; omega)
  rw [aux]
  funext x
  simp only [zeroFn]
  by_cases hx : x < 4 * 2 ^ (p - 1)
  · rw [if_pos hx]
  · rw [if_neg hx]
    simp only [eC]
    rw [if_neg (by omega)]

/-- The butterfly stages of performFFT send the impulse at complex bin 1
to the all-zero array: the first stage kills it and the remaining stages
preserve zero. -/
theorem fftStages_eC_one (p : ℕ) (hp : 1 ≤ p) :
    fftStages (2 ^ p) (eC 1) = zeroFn := by
  unfold fftStages
  rw [Nat.clog_pow 2 p (by norm_num)]
  have aux : ∀ n, 1 ≤ n →
      iterN (fun s b => groupsLoop (2 ^ p) (2 ^ s) b) n (eC 1) = zeroFn := by
    intro n
    induction n with
    | zero => omega
    | succ q ihq =>
      intro _
      rw [iterN_succ]
      by_cases hq : q = 0
      · subst hq
        rw [iterN_zero, pow_zero]
        exact groupsLoop_one_eC_one p hp
      · rw [ihq (by omega)]
        exact groupsLoop_zeroFn _ _
  exact aux p hp

/-- performFFT annihilates the centered impulse on every power-of-two
size: after bit reversal the unit value sits at complex bin 1, which the
first (vanishing-twiddle) stage erases. -/
theorem performFFT_impulse (p : ℕ) (hp : 1 ≤ p) :
    performFFT (2 ^ p) (eC (2 ^ (p - 1))) = zeroFn := by
  unfold performFFT
  rw [bitrevPass_impulse p hp]
  exact fftStages_eC_one p hp

/-- The full FFT engine on the centered impulse with the identity window
returns the all-zero spectrum. -/
theorem computeSTFT_impulse (p : ℕ) (hp : 1 ≤ p) :
    computeSTFT (fun i => if i = 2 ^ p / 2 then 1 else 0) (2 ^ p) (fun _ => 1) =
      zeroFn := by
  have hhalf : 2 ^ p / 2 = 2 ^ (p - 1) := by
    obtain ⟨p', rfl⟩ : ∃ p', p = p' + 1 := ⟨p - 1, by omega⟩
    rw [pow_succ]
    simp [Nat.mul_div_cancel]
  have hlt : 2 ^ (p - 1) < 2 ^ p := Nat.pow_lt_pow_right (by norm_num) (by omega)
  have hstft : ∀ (d : ℕ → ℝ) (N : ℕ) (w : ℕ → ℝ), computeSTFT d N w =
      performFFT N (fun idx => if idx % 2 = 0 ∧ idx / 2 < N then
        d (idx / 2) * w (idx / 2) else 0) := fun d N w => rfl
  rw [hstft]
  have hpack : (fun idx => if idx % 2 = 0 ∧ idx / 2 < 2 ^ p then
      (fun i => if i = 2 ^ p / 2 then (1 : ℝ) else 0) (idx / 2) *
        (fun _ : ℕ => (1 : ℝ)) (idx / 2) else 0) = eC (2 ^ (p - 1)) := by
    funext idx
    dsimp only
    rw [hhalf]
    simp only [eC, mul_one]
    split_ifs <;> first | rfl | (exfalso; omega)
  rw [hpack]
  exact performFFT_impulse p hp

/-- C2: for every power-of-two size N = 2^p, feeding the impulse input
(a single unit sample at the window center N/2, all other samples zero)
through the FFT engine with an identity window yields a flat magnitude
spectrum: every pair of bins has the same magnitude. (The proof shows the
spectrum is identically zero — an artifact of the vanishing twiddle of
the first butterfly stage — hence flat at magnitude 0.) -/
theorem C2_impulse_flat_spectrum (p b c : ℕ) (hp : 1 ≤ p) :
    magAt (computeSTFT (fun i => if i = 2 ^ p / 2 then 1 else 0) (2 ^ p)
        (fun _ => 1)) b =
      magAt (computeSTFT (fun i => if i = 2 ^ p / 2 then 1 else 0) (2 ^ p)
        (fun _ => 1)) c := by
  rw [computeSTFT_impulse p hp]
  rfl

/-- Witness for C2 at N = 2 (p = 1), comparing bins 0 and 1. -/
theorem C2_impulse_flat_spectrum_witness :
    1 ≤ 1 ∧
    magAt (computeSTFT (fun i => if i = 2 ^ 1 / 2 then 1 else 0) (2 ^ 1)
        (fun _ => 1)) 0 =
      magAt (computeSTFT (fun i => if i = 2 ^ 1 / 2 then 1 else 0) (2 ^ 1)
        (fun _ => 1)) 1 :=
  ⟨le_refl 1, C2_impulse_flat_spectrum 1 0 1 (le_refl 1)⟩

/-! ### C4: all-zero input -/

theorem swapC_zeroFn (i j : ℕ) : swapC zeroFn i j = zeroFn := by
  funext x
  simp [swapC, zeroFn]

theorem bitrevPass_zeroFn (N : ℕ) : bitrevPass N zeroFn = zeroFn := by
  unfold bitrevPass
  exact iterN_pres (fun s : (ℕ → ℝ) × ℕ => s.1 = zeroFn) _
    (fun i s hs => by
      dsimp only
      by_cases h : i < s.2
      · rw [if_pos h, hs]
        exact swapC_zeroFn _ _
      · rw [if_neg h]
        exact hs) _ _ rfl

theorem fftStages_zeroFn (N : ℕ) : fftStages N zeroFn = zeroFn := by
  unfold fftStages
  exact iterN_pres (fun a => a = zeroFn) _
    (fun i a ha => by rw [ha]; exact groupsLoop_zeroFn _ _) _ _ rfl

theorem performFFT_zeroFn (N : ℕ) : performFFT N zeroFn = zeroFn := by
  unfold performFFT
  rw [bitrevPass_zeroFn]
  exact fftStages_zeroFn N

theorem computeSTFT_zeroFn (fl : ℕ) (w : ℕ → ℝ) :
    computeSTFT zeroFn fl w = zeroFn := by
  unfold computeSTFT
  have hpk : (fun idx => if idx % 2 = 0 ∧ idx / 2 < fl then
      zeroFn (idx / 2) * w (idx / 2) else 0) = zeroFn := by
    funext idx
    simp [zeroFn]
  rw [hpk]
  exact performFFT_zeroFn fl

/-- On a zero spectrum the per-bin body is the identity: the magnitude is
0, so the adaptive threshold mag > maxMagnitude * 0.01 fails (both in
reals, where 0 > 0 is false, and in JS, where the all-zero frame makes
the comparison false). -/
theorem binBody_zero_stft (sr : ℝ) (fm : ℕ → ℝ) (bin : ℕ) (st : BinState)
    (hmm : 0 ≤ st.maxMagnitude) : binBody sr zeroFn fm bin st = st := by
  have hcond : ¬(Real.sqrt ((0 : ℝ) * 0 + 0 * 0) > st.maxMagnitude * 0.01) := by
    rw [show (0 : ℝ) * 0 + 0 * 0 = 0 by ring, Real.sqrt_zero]
    exact not_lt.mpr (mul_nonneg hmm (by norm_num))
  simp only [binBody, zeroFn]
  rw [if_neg hcond]

theorem taperBody_zero_frame (h Dh : ℕ → ℝ) (fl : ℕ) (sr : ℝ) (k : ℕ)
    (st : BinState) (hmm : 0 ≤ st.maxMagnitude) :
    taperBody h Dh zeroFn fl sr k st = st := by
  simp only [taperBody]
  rw [computeSTFT_zeroFn, computeSTFT_zeroFn]
  exact iterN_pres (fun a => a = st) _
    (fun i a ha => by rw [ha]; exact binBody_zero_stft _ _ _ _ hmm) _ _ rfl

theorem frameBody_zero_data (h Dh : ℕ → ℝ) (len : ℕ) (sr : ℝ)
    (step K frame : ℕ) (st : (ℕ → ℝ) × (ℕ → ℝ)) :
    frameBody h Dh zeroFn len sr step K frame st = st := by
  simp only [frameBody]
  have hfd : (fun i => if i < frameLen len step frame then
      zeroFn (frame * step + i) else 0) = zeroFn := by
    funext i
    simp [zeroFn]
  rw [hfd]
  have hat : iterN (taperBody h Dh zeroFn (frameLen len step frame) sr) K
      { tfr := zeroFn, maxMagnitude := 0, previousPhase := st.2 } =
      { tfr := zeroFn, maxMagnitude := 0, previousPhase := st.2 } :=
    iterN_pres (fun a => a = _) _
      (fun i a ha => by rw [ha]; exact taperBody_zero_frame _ _ _ _ _ _ (le_refl 0))
      _ _ rfl
  rw [hat]
  dsimp only
  rw [show maxOver (WINDOW_SIZE / 2) zeroFn = 0 by
    simpa [zeroFn] using maxOver_zeroFn (WINDOW_SIZE / 2)]
  rw [if_neg (lt_irrefl 0)]

/-- C4: on an all-zero input buffer (of any length), analyzeReassignment
returns the all-zero energy vector. The per-sample normalization divides
by the zero peak amplitude; the embedding idealizes that division as the
real convention 0 / 0 = 0, and the output is the one the source produces
(in JS the quotient is NaN, every magnitude is NaN, the threshold
comparison NaN > 0 is false exactly as 0 > 0 is here, and the result
Uint8Array is never written) — all zeros, no NaN in the output. -/
theorem C4_zero_input (audio : ℕ → ℝ) (len : ℕ) (sr : ℝ) (step K : ℕ)
    (tm : ℝ) (prev0 : ℕ → ℝ) (ha : ∀ i, audio i = 0) :
    (analyzeReassignment audio len sr step K tm prev0).1 = zeroFn := by
  simp only [analyzeReassignment]
  have hnd : (fun i => if i < len then
      audio i / maxOver len (fun i => |audio i|) * 200.0 else 0) = zeroFn := by
    funext i
    by_cases h : i < len
    · simp [h, ha i, zeroFn]
    · simp [h, zeroFn]
  rw [hnd]
  have hiter := iterN_pres (fun s : (ℕ → ℝ) × (ℕ → ℝ) => s = (zeroFn, prev0))
    (frameBody (createHermiteFunctions WINDOW_SIZE K tm).1
      (createHermiteFunctions WINDOW_SIZE K tm).2.1 zeroFn len sr step K)
    (fun i s hs => by rw [hs]; exact frameBody_zero_data _ _ _ _ _ _ _ _)
    (nFrames len step).toNat (zeroFn, prev0) rfl
  rw [hiter]

/-- Witness for C4 on the zero buffer of length 3 at sample rate 44100,
step 512, K = 6, tm = 6. -/
theorem C4_zero_input_witness :
    (analyzeReassignment (fun _ : ℕ => (0 : ℝ)) 3 44100 512 6 6 zeroFn).1 = zeroFn :=
  C4_zero_input (fun _ => 0) 3 44100 512 6 6 zeroFn (fun _ => rfl)

/-! ### C5: determinism and independence from previousPhase -/

/-- The tfr and maxMagnitude components of the per-bin body do not depend
on the previousPhase component of the state: the buffer is written (the
phase is recorded) but never read. -/
theorem binBody_proj (sr : ℝ) (s f : ℕ → ℝ) (bin : ℕ) (a b : BinState)
    (ht : a.tfr = b.tfr) (hm : a.maxMagnitude = b.maxMagnitude) :
    (binBody sr s f bin a).tfr = (binBody sr s f bin b).tfr ∧
    (binBody sr s f bin a).maxMagnitude = (binBody sr s f bin b).maxMagnitude := by
  simp only [binBody]
  rw [hm, ht]
  split_ifs <;> first | exact ⟨rfl, rfl⟩ | exact ⟨ht, hm⟩

theorem iterN_binBody_proj (sr : ℝ) (s f : ℕ → ℝ) (n : ℕ) (a b : BinState)
    (ht : a.tfr = b.tfr) (hm : a.maxMagnitude = b.maxMagnitude) :
    (iterN (binBody sr s f) n a).tfr = (iterN (binBody sr s f) n b).tfr ∧
    (iterN (binBody sr s f) n a).maxMagnitude =
      (iterN (binBody sr s f) n b).maxMagnitude :=
  iterN_rel (fun x y : BinState => x.tfr = y.tfr ∧ x.maxMagnitude = y.maxMagnitude)
    (binBody sr s f) (binBody sr s f)
    (fun i x y hxy => binBody_proj sr s f i x y hxy.1 hxy.2) n a b ⟨ht, hm⟩

theorem taperBody_proj (h Dh fd : ℕ → ℝ) (fl : ℕ) (sr : ℝ) (k : ℕ)
    (a b : BinState) (ht : a.tfr = b.tfr) (hm : a.maxMagnitude = b.maxMagnitude) :
    (taperBody h Dh fd fl sr k a).tfr = (taperBody h Dh fd fl sr k b).tfr ∧
    (taperBody h Dh fd fl sr k a).maxMagnitude =
      (taperBody h Dh fd fl sr k b).maxMagnitude := by
  simp only [taperBody]
  exact iterN_binBody_proj _ _ _ _ _ _ ht hm

theorem iterN_taperBody_proj (h Dh fd : ℕ → ℝ) (fl : ℕ) (sr : ℝ) (n : ℕ)
    (a b : BinState) (ht : a.tfr = b.tfr) (hm : a.maxMagnitude = b.maxMagnitude) :
    (iterN (taperBody h Dh fd fl sr) n a).tfr =
      (iterN (taperBody h Dh fd fl sr) n b).tfr ∧
    (iterN (taperBody h Dh fd fl sr) n a).maxMagnitude =
      (iterN (taperBody h Dh fd fl sr) n b).maxMagnitude :=
  iterN_rel (fun x y : BinState => x.tfr = y.tfr ∧ x.maxMagnitude = y.maxMagnitude)
    (taperBody h Dh fd fl sr) (taperBody h Dh fd fl sr)
    (fun i x y hxy => taperBody_proj h Dh fd fl sr i x y hxy.1 hxy.2) n a b ⟨ht, hm⟩

/-- The result component of the frame body does not depend on the
previousPhase component of the state. -/
theorem frameBody_fst (h Dh nd : ℕ → ℝ) (len : ℕ) (sr : ℝ)
    (step K frame : ℕ) (s1 s2 : (ℕ → ℝ) × (ℕ → ℝ)) (hR : s1.1 = s2.1) :
    (frameBody h Dh nd len sr step K frame s1).1 =
      (frameBody h Dh nd len sr step K frame s2).1 := by
  simp only [frameBody]
  have hrel := iterN_taperBody_proj h Dh
    (fun i => if i < frameLen len step frame then nd (frame * step + i) else 0)
    (frameLen len step frame) sr K
    { tfr := zeroFn, maxMagnitude := 0, previousPhase := s1.2 }
    { tfr := zeroFn, maxMagnitude := 0, previousPhase := s2.2 } rfl rfl
  rw [hrel.1, hR]

theorem iterN_frameBody_fst (h Dh nd : ℕ → ℝ) (len : ℕ) (sr : ℝ)
    (step K n : ℕ) (s1 s2 : (ℕ → ℝ) × (ℕ → ℝ)) (hR : s1.1 = s2.1) :
    (iterN (frameBody h Dh nd len sr step K) n s1).1 =
      (iterN (frameBody h Dh nd len sr step K) n s2).1 :=
  iterN_rel (fun x y : (ℕ → ℝ) × (ℕ → ℝ) => x.1 = y.1)
    (frameBody h Dh nd len sr step K) (frameBody h Dh nd len sr step K)
    (fun i x y hxy => frameBody_fst h Dh nd len sr step K i x y hxy) n s1 s2 hR

/-- C5: analyzeReassignment is deterministic and its result does not
depend on the prior contents of the module-level previousPhase buffer:
two runs on the same audio, sample rate, step, K and tm, started from any
two previousPhase states (in particular, a fresh buffer versus one
mutated by an earlier invocation), return the same result array; and the
window bank is a pure function of (N, K, tm). -/
theorem C5_deterministic (audio : ℕ → ℝ) (len : ℕ) (sr : ℝ) (step K : ℕ)
    (tm : ℝ) (prev1 prev2 : ℕ → ℝ) :
    (analyzeReassignment audio len sr step K tm prev1).1 =
      (analyzeReassignment audio len sr step K tm prev2).1 ∧
    createHermiteFunctions WINDOW_SIZE K tm =
      createHermiteFunctions WINDOW_SIZE K tm := by
  refine ⟨?_, rfl⟩
  simp only [analyzeReassignment]
  exact iterN_frameBody_fst _ _ _ _ _ _ _ _ _ _ rfl

/-! ### C7: frame count -/

/-- The real floor of an integer divided by a natural number is integer
(Euclidean, here equal to floor) division. -/
theorem floor_intCast_div_natCast_real (a : ℤ) (s : ℕ) :
    ⌊((a : ℝ) / (s : ℝ))⌋ = a / (s : ℤ) := by
  have h3 : (a : ℝ) / (s : ℝ) = (((a : ℚ) / (s : ℚ) : ℚ) : ℝ) := by
    push_cast
    ring
  rw [h3, Rat.floor_cast, Rat.floor_intCast_div_natCast]

/-- nFrames written with integer division. -/
theorem nFrames_eq_ediv (len step : ℕ) :
    nFrames len step =
      max 1 (((len : ℤ) - (WINDOW_SIZE : ℤ)) / (step : ℤ) + 1) := by
  unfold nFrames
  have h1 : (len : ℝ) - (WINDOW_SIZE : ℝ) =
      (((len : ℤ) - (WINDOW_SIZE : ℤ) : ℤ) : ℝ) := by push_cast; ring
  rw [h1, floor_intCast_div_natCast_real]

/-- C7: for every input length and every positive step, the number of
frames analyzeReassignment processes (the loop bound (nFrames len step).toNat
of the embedding) equals max (1, floor ((len - N) / step) + 1) with a true
floor division (Int.fdiv); it is at least 1, and exactly 1 whenever the
input is shorter than the window (the real-arithmetic floor of the
negative quotient makes the second argument of max nonpositive). -/
theorem C7_frame_count (len step : ℕ) (hs : 0 < step) :
    nFrames len step =
      max 1 (Int.fdiv ((len : ℤ) - (WINDOW_SIZE : ℤ)) ((step : ℕ) : ℤ) + 1) ∧
    ((nFrames len step).toNat : ℤ) = nFrames len step ∧
    (len < WINDOW_SIZE → nFrames len step = 1) := by
  have he := nFrames_eq_ediv len step
  have hfd : Int.fdiv ((len : ℤ) - (WINDOW_SIZE : ℤ)) ((step : ℕ) : ℤ) =
      ((len : ℤ) - (WINDOW_SIZE : ℤ)) / ((step : ℕ) : ℤ) :=
    Int.fdiv_eq_ediv _ (by positivity)
  refine ⟨by rw [he, hfd], ?_, ?_⟩
  · rw [he]
    omega
  · intro hlen
    rw [he]
    have hneg : (len : ℤ) - (WINDOW_SIZE : ℤ) < 0 := by
      have hc : (len : ℤ) < (WINDOW_SIZE : ℤ) := by exact_mod_cast hlen
      omega
    have hq : ((len : ℤ) - (WINDOW_SIZE : ℤ)) / ((step : ℕ) : ℤ) < 0 :=
      Int.ediv_neg' hneg (by positivity)
    omega

/-- Witness for C7 at len = 100, step = 512: the short input is processed
as exactly one frame. -/
theorem C7_frame_count_witness :
    0 < 512 ∧
    nFrames 100 512 =
      max 1 (Int.fdiv (((100 : ℕ) : ℤ) - (WINDOW_SIZE : ℤ)) (((512 : ℕ) : ℕ) : ℤ) + 1) ∧
    ((nFrames 100 512).toNat : ℤ) = nFrames 100 512 ∧
    nFrames 100 512 = 1 :=
  ⟨by norm_num, (C7_frame_count 100 512 (by norm_num)).1,
    (C7_frame_count 100 512 (by norm_num)).2.1,
    (C7_frame_count 100 512 (by norm_num)).2.2 (by norm_num [WINDOW_SIZE])⟩

/-! ### C8: reassignment clamp and in-bounds accumulation -/

/-- C8: in every per-bin step, the applied frequency correction lies in
[-50, 50] Hz, and the energy array is only ever written below index N/2:
every cell at or above N/2 is left unchanged by the per-bin body (the
guard 0 <= reassignedBin < N/2 protects the single write). -/
theorem C8_clamp_and_bounds (sampleRate : ℝ) (stft freqMod : ℕ → ℝ)
    (x : ℝ) (bin : ℕ) (st : BinState) :
    -50 ≤ freqOffset x sampleRate ∧ freqOffset x sampleRate ≤ 50 ∧
    ∀ m, WINDOW_SIZE / 2 ≤ m →
      (binBody sampleRate stft freqMod bin st).tfr m = st.tfr m := by
  refine ⟨le_max_left _ _, max_le (by norm_num) (min_le_left _ _), ?_⟩
  intro m hm
  simp only [binBody]
  split_ifs with h1 h2
  · have hrb : (⌊((bin : ℝ) * sampleRate / (WINDOW_SIZE : ℝ) +
        freqOffset (wrapLow (wrapHigh
          ((Complex.arg (Complex.mk (freqMod (bin * 2)) (freqMod (bin * 2 + 1))) -
              Complex.arg (Complex.mk (stft (bin * 2)) (stft (bin * 2 + 1)))) /
            (2 * Real.pi)))) sampleRate) *
        (WINDOW_SIZE : ℝ) / sampleRate + 1 / 2⌋).toNat < WINDOW_SIZE / 2 := by
      omega
    exact upd_other _ _ _ (by omega)
  · rfl
  · rfl

/-- Witness for C8 at sample rate 44100, zero spectra, bin 0, the empty
state, and cell 1024 (the first out-of-range index). -/
theorem C8_clamp_and_bounds_witness :
    -50 ≤ freqOffset 0 44100 ∧ freqOffset 0 44100 ≤ 50 ∧
    (binBody 44100 zeroFn zeroFn 0
        { tfr := zeroFn, maxMagnitude := 0, previousPhase := zeroFn }).tfr 1024 =
      ({ tfr := zeroFn, maxMagnitude := 0, previousPhase := zeroFn } : BinState).tfr 1024 :=
  ⟨(C8_clamp_and_bounds 44100 zeroFn zeroFn 0 0
      { tfr := zeroFn, maxMagnitude := 0, previousPhase := zeroFn }).1,
   (C8_clamp_and_bounds 44100 zeroFn zeroFn 0 0
      { tfr := zeroFn, maxMagnitude := 0, previousPhase := zeroFn }).2.1,
   (C8_clamp_and_bounds 44100 zeroFn zeroFn 0 0
      { tfr := zeroFn, maxMagnitude := 0, previousPhase := zeroFn }).2.2 1024 (by decide)⟩

/-! ### C9: short inputs are silently truncated, not validated or padded -/

/-- C9 counterexample: on a 4-sample buffer with the default step 512 the
engine still processes one frame, and the frame it hands to computeSTFT
(whose FFT length is the frame length) has length 4, not the full window
length 2048: the claim that the FFT is only ever applied to full-length
frames is false — the engine neither validates nor pads. -/
theorem C9_short_input_not_full_frame : ¬fullFrameProp 4 512 := by
  intro hcl
  have hnf : nFrames 4 512 = 1 := by
    rw [nFrames_eq_ediv]
    decide
  have h0 := hcl 0 (by rw [hnf]; norm_num)
  have h4 : frameLen 4 512 0 = 4 := by decide
  rw [h4] at h0
  exact absurd h0 (by decide)

/-- C9 amended: analyzeReassignment performs no validation or padding:
the frame it passes to the FFT at index f has length
min (N, len - f * step) — for a buffer shorter than N = 2048 this is a
silently truncated slice — and only when the buffer holds at least N
samples does every processed frame have the full window length. -/
theorem C9_no_padding_truncated_slice (len step : ℕ) (hs : 0 < step) :
    (∀ f, frameLen len step f = min WINDOW_SIZE (len - f * step)) ∧
    (WINDOW_SIZE ≤ len → fullFrameProp len step) := by
  constructor
  · intro f
    unfold frameLen
    omega
  · intro hlen f hf
    have he := nFrames_eq_ediv len step
    have hd0 : 0 ≤ (len : ℤ) - (WINDOW_SIZE : ℤ) := by
      have hc : (WINDOW_SIZE : ℤ) ≤ (len : ℤ) := by exact_mod_cast hlen
      omega
    have hq0 : 0 ≤ ((len : ℤ) - (WINDOW_SIZE : ℤ)) / ((step : ℕ) : ℤ) :=
      Int.ediv_nonneg hd0 (by positivity)
    have hfq : (f : ℤ) ≤ ((len : ℤ) - (WINDOW_SIZE : ℤ)) / ((step : ℕ) : ℤ) := by
      rw [he] at hf
      omega
    have hmul : ((len : ℤ) - (WINDOW_SIZE : ℤ)) / ((step : ℕ) : ℤ) * ((step : ℕ) : ℤ) ≤
        (len : ℤ) - (WINDOW_SIZE : ℤ) := by
      have hmod : 0 ≤ ((len : ℤ) - (WINDOW_SIZE : ℤ)) % ((step : ℕ) : ℤ) :=
        Int.emod_nonneg _ (by positivity)
      have heq := Int.ediv_add_emod ((len : ℤ) - (WINDOW_SIZE : ℤ)) ((step : ℕ) : ℤ)
      linarith [heq]
    have key : (f : ℤ) * ((step : ℕ) : ℤ) ≤ (len : ℤ) - (WINDOW_SIZE : ℤ) := by
      calc (f : ℤ) * ((step : ℕ) : ℤ) ≤
          ((len : ℤ) - (WINDOW_SIZE : ℤ)) / ((step : ℕ) : ℤ) * ((step : ℕ) : ℤ) :=
            mul_le_mul_of_nonneg_right hfq (by positivity)
      _ ≤ (len : ℤ) - (WINDOW_SIZE : ℤ) := hmul
    have keyn : f * step + WINDOW_SIZE ≤ len := by
      have hc : ((f * step + WINDOW_SIZE : ℕ) : ℤ) ≤ (len : ℤ) := by
        push_cast
        push_cast at key
        omega
      exact_mod_cast hc
    unfold frameLen
    omega

/-- Witness for the amended C9 at len = 2048, step = 512: frame 3 gets a
truncated slice, and frame 0 of the just-long-enough buffer is full. -/
theorem C9_no_padding_truncated_slice_witness :
    0 < 512 ∧
    frameLen 2048 512 3 = min WINDOW_SIZE (2048 - 3 * 512) ∧
    frameLen 2048 512 0 = WINDOW_SIZE :=
  ⟨by norm_num, (C9_no_padding_truncated_slice 2048 512 (by norm_num)).1 3,
    (C9_no_padding_truncated_slice 2048 512 (by norm_num)).2
      (by norm_num [WINDOW_SIZE]) 0 (by rw [nFrames_eq_ediv]; decide)⟩

end Spectrogram
